import Mathlib

/-!
# Verification of the kx-stripe idempotency-key deriver and metadata sanitizer

Shallow embedding of the two core utilities of the `kx-stripe` repository:

* `generateIdempotencyKey` / `sortObjectKeys` (package `kx-stripe-runtime`,
  module `utils/idempotency`, source listed in the runtime README),
* `createMetadata` / `mergeMetadata` (module `utils/metadata`).

JavaScript values are modelled by the mutually inductive type `Value`
(primitives, arrays, and objects as insertion-ordered association lists).
JavaScript objects cannot hold duplicate keys, so theorems about objects
carry explicit no-duplicate-key hypotheses where the result depends on it.
Strings are compared by their character sequences (`charListLt`), machine
integers of the SHA-256 implementation are `Nat` reduced `% 2^32`.
-/

/-- Strict lexicographic comparison of character lists, comparing
characters by code point, as the JavaScript `<` on strings does for the
strings appearing in this program. -/
def charListLt : List Char → List Char → Bool
  | [], [] => false
  | [], _ :: _ => true
  | _ :: _, [] => false
  | a :: as, b :: bs =>
    if a < b then true
    else if b < a then false
    else charListLt as bs

/-- JavaScript string `<`. -/
def jsStrLt (a b : String) : Bool := charListLt a.data b.data

/-- JavaScript string `<=`, the order used by `Array.prototype.sort()`
on the key arrays of this program. -/
def jsStrLe (a b : String) : Bool := ! jsStrLt b a

mutual
/-- JavaScript values as passed to the two core utilities: primitives,
`null`/`undefined`, arrays, and plain objects whose properties are kept
in insertion order. -/
inductive Value : Type where
  | vNull : Value
  | vUndefined : Value
  | vBool (b : Bool) : Value
  | vNum (n : Int) : Value
  | vStr (s : String) : Value
  | vArr (xs : VList) : Value
  | vObj (fs : FList) : Value

inductive VList : Type where
  | nil : VList
  | cons (hd : Value) (tl : VList) : VList

inductive FList : Type where
  | nil : FList
  | cons (k : String) (hd : Value) (tl : FList) : FList
end

/-- The elements of an array, as a Lean list. -/
def VList.toList : VList → List Value
  | .nil => []
  | .cons v vs => v :: VList.toList vs

/-- Build an array payload from a Lean list. -/
def VList.ofList : List Value → VList
  | [] => .nil
  | v :: vs => .cons v (VList.ofList vs)

/-- The properties of an object, as a Lean association list
(in insertion order). -/
def FList.toList : FList → List (String × Value)
  | .nil => []
  | .cons k v fs => (k, v) :: FList.toList fs

/-- Build an object payload from a Lean association list. -/
def FList.ofList : List (String × Value) → FList
  | [] => .nil
  | (k, v) :: fs => .cons k v (FList.ofList fs)

/-- `Object.keys`: the keys of an object, in property order. -/
def FList.keys : FList → List String
  | .nil => []
  | .cons k _ fs => k :: FList.keys fs

/-- The order on object properties used by `Object.keys(obj).sort()`:
compare the keys with the JavaScript string order. -/
def fieldLe (a b : String × Value) : Prop := jsStrLe a.1 b.1 = true

instance : DecidableRel fieldLe := fun a b => inferInstanceAs (Decidable (jsStrLe a.1 b.1 = true))

mutual
/-- `sortObjectKeys` (utils/idempotency): recursively canonicalize a value,
sorting the keys of every object in ascending string order.  The source
sorts the key array first and then recurses into each property value; the
comparator reads only the keys, which the recursion never changes, so
recursing first and sorting afterwards (as done here, to keep the
recursion structural) produces the same result. -/
def sortObjectKeys : Value → Value
  | .vNull => .vNull
  | .vUndefined => .vUndefined
  | .vBool b => .vBool b
  | .vNum n => .vNum n
  | .vStr s => .vStr s
  | .vArr xs => .vArr (sortVL xs)
  | .vObj fs => .vObj (FList.ofList (List.insertionSort fieldLe (sortFL fs)))

def sortVL : VList → VList
  | .nil => .nil
  | .cons v vs => .cons (sortObjectKeys v) (sortVL vs)

def sortFL : FList → List (String × Value)
  | .nil => []
  | .cons k v fs => (k, sortObjectKeys v) :: sortFL fs
end

/-- Lowercase hexadecimal digit. -/
def hexDigitChar (n : Nat) : Char := Char.ofNat (if n < 10 then 48 + n else 87 + n)

/-- `JSON.stringify` escaping of a single character inside a string
literal. -/
def jsonEscapeChar (c : Char) : List Char :=
  if c = '"' then ['\\', '"']
  else if c = '\\' then ['\\', '\\']
  else if c = '\n' then ['\\', 'n']
  else if c = '\r' then ['\\', 'r']
  else if c = '\t' then ['\\', 't']
  else if c = Char.ofNat 8 then ['\\', 'b']
  else if c = Char.ofNat 12 then ['\\', 'f']
  else if c.toNat < 32 then
    ['\\', 'u', '0', '0', hexDigitChar (c.toNat / 16), hexDigitChar (c.toNat % 16)]
  else [c]

/-- A JSON string literal for `s`. -/
def jsonQuote (s : String) : String :=
  String.mk ('"' :: (s.data.flatMap jsonEscapeChar ++ ['"']))

mutual
/-- `JSON.stringify`.  Returns `none` exactly where the JavaScript
function returns `undefined` (an `undefined` argument); inside arrays an
`undefined` element serializes as `null`, and inside objects a property
whose value is `undefined` is dropped. -/
def jsonStr : Value → Option String
  | .vNull => some "null"
  | .vUndefined => none
  | .vBool b => some (cond b "true" "false")
  | .vNum n => some (toString n)
  | .vStr s => some (jsonQuote s)
  | .vArr xs => some ("[" ++ String.intercalate "," (jsonElems xs) ++ "]")
  | .vObj fs => some ("\x7b" ++ String.intercalate "," (jsonMembers fs) ++ "\x7d")

def jsonElems : VList → List String
  | .nil => []
  | .cons v vs =>
    (match jsonStr v with
     | none => "null"
     | some s => s) :: jsonElems vs

def jsonMembers : FList → List String
  | .nil => []
  | .cons k v fs =>
    match jsonStr v with
    | none => jsonMembers fs
    | some s => (jsonQuote k ++ ":" ++ s) :: jsonMembers fs
end

/-- The text interpolated for `JSON.stringify(x)` inside a template
literal: the string itself, or the text `undefined` when `JSON.stringify`
returned `undefined`. -/
def jsonStringify (v : Value) : String := (jsonStr v).getD "undefined"

mutual
/-- `String(value)`: JavaScript string coercion for the value shapes of
this model (arrays join their elements with commas, `null` and
`undefined` elements joining as empty text; objects print as
`[object Object]`). -/
def jsToString : Value → String
  | .vNull => "null"
  | .vUndefined => "undefined"
  | .vBool b => cond b "true" "false"
  | .vNum n => toString n
  | .vStr s => s
  | .vArr xs => String.intercalate "," (arrElemStrs xs)
  | .vObj _ => "[object Object]"

def arrElemStrs : VList → List String
  | .nil => []
  | .cons v vs =>
    (match v with
     | .vNull => ""
     | .vUndefined => ""
     | w => jsToString w) :: arrElemStrs vs
end

/-- `value === undefined || value === null`, the dropping condition of
`createMetadata` (negated in the source). -/
def isAbsent : Value → Bool
  | .vUndefined => true
  | .vNull => true
  | _ => false

/-- JavaScript property assignment `obj[k] = v` on an object represented
as an insertion-ordered association list: an existing key keeps its
position and gets the new value, a fresh key is appended. -/
def objSet (l : List (String × String)) (k v : String) : List (String × String) :=
  match l with
  | [] => [(k, v)]
  | (k', v') :: rest => if k' = k then (k, v) :: rest else (k', v') :: objSet rest k v

/-- JavaScript property read `obj[k]`, `none` when absent. -/
def objLookup (l : List (String × String)) (k : String) : Option String :=
  match l with
  | [] => none
  | (k', v') :: rest => if k' = k then some v' else objLookup rest k

/-- The `Object.entries(metadata).forEach` filtering loop of
`createMetadata`: drop `undefined`/`null` values, coerce the rest with
`String(...)`, writing into the accumulator object. -/
def metaFilter : List (String × Value) → List (String × String) → List (String × String)
  | [], acc => acc
  | (k, v) :: rest, acc =>
    if isAbsent v then metaFilter rest acc
    else metaFilter rest (objSet acc k (jsToString v))

/-- `s.substring(0, n)` for the truncations of `createMetadata`. -/
def jsSubstringTo (s : String) (n : Nat) : String := String.mk (s.data.take n)

/-- `key.length > 40 ? key.substring(0, 40) : key`. -/
def truncKey (k : String) : String := if k.length > 40 then jsSubstringTo k 40 else k

/-- `value.length > 500 ? value.substring(0, 500) : value`. -/
def truncVal (v : String) : String := if v.length > 500 then jsSubstringTo v 500 else v

/-- The `keys.forEach` truncation loop of `createMetadata`. -/
def metaSanitize : List (String × String) → List (String × String) → List (String × String)
  | [], acc => acc
  | (k, v) :: rest, acc => metaSanitize rest (objSet acc (truncKey k) (truncVal v))

/-- `createMetadata` (utils/metadata): filter out `undefined`/`null`
values, coerce values to strings; if more than 50 entries remain, return
the first 50 of them unchanged; otherwise truncate keys to 40 and values
to 500 characters. -/
def createMetadata (m : List (String × Value)) : List (String × String) :=
  let filtered := metaFilter m []
  if filtered.length > 50 then filtered.take 50
  else metaSanitize filtered []

/-- `Object.assign(target, src)`. -/
def objAssign (target src : List (String × String)) : List (String × String) :=
  src.foldl (fun acc kv => objSet acc kv.1 kv.2) target

/-- The merging loop of `mergeMetadata`: fold the (possibly `undefined`)
metadata objects into one object, skipping the `undefined` entries. -/
def mergeRaw (ms : List (Option (List (String × String)))) : List (String × String) :=
  ms.foldl
    (fun acc m =>
      match m with
      | none => acc
      | some l => objAssign acc l)
    []

/-- Lift a string-valued metadata object to a `createMetadata` argument. -/
def liftMeta (m : List (String × String)) : List (String × Value) :=
  m.map fun kv => (kv.1, Value.vStr kv.2)

/-- `mergeMetadata` (utils/metadata): merge the given metadata objects,
later ones overriding earlier ones, and pass the result through
`createMetadata`. -/
def mergeMetadata (ms : List (Option (List (String × String)))) : List (String × String) :=
  createMetadata (liftMeta (mergeRaw ms))

/-- UTF-8 encoding of one character. -/
def utf8Char (c : Char) : List Nat :=
  let n := c.toNat
  if n < 128 then [n]
  else if n < 2048 then [192 ||| (n >>> 6), 128 ||| (n &&& 63)]
  else if n < 65536 then [224 ||| (n >>> 12), 128 ||| ((n >>> 6) &&& 63), 128 ||| (n &&& 63)]
  else [240 ||| (n >>> 18), 128 ||| ((n >>> 12) &&& 63), 128 ||| ((n >>> 6) &&& 63), 128 ||| (n &&& 63)]

/-- UTF-8 bytes of a string, the input fed to the digest by
`createHash('sha256').update(...)`. -/
def utf8Bytes (s : String) : List Nat := s.data.flatMap utf8Char

/-- `2^32`, the word modulus of SHA-256. -/
def m32 : Nat := 4294967296

/-- Rotate a 32-bit word (a `Nat` below `2^32`) right by `n`. -/
def rotr32 (n x : Nat) : Nat := ((x >>> n) ||| (x <<< (32 - n))) % m32

/-- SHA-256 `Σ0`. -/
def bigSigma0 (x : Nat) : Nat := rotr32 2 x ^^^ rotr32 13 x ^^^ rotr32 22 x

/-- SHA-256 `Σ1`. -/
def bigSigma1 (x : Nat) : Nat := rotr32 6 x ^^^ rotr32 11 x ^^^ rotr32 25 x

/-- SHA-256 `σ0`. -/
def smallSigma0 (x : Nat) : Nat := rotr32 7 x ^^^ rotr32 18 x ^^^ (x >>> 3)

/-- SHA-256 `σ1`. -/
def smallSigma1 (x : Nat) : Nat := rotr32 17 x ^^^ rotr32 19 x ^^^ (x >>> 10)

/-- SHA-256 `Ch`. -/
def chF (x y z : Nat) : Nat := (x &&& y) ^^^ ((x ^^^ 4294967295) &&& z)

/-- SHA-256 `Maj`. -/
def majF (x y z : Nat) : Nat := (x &&& y) ^^^ (x &&& z) ^^^ (y &&& z)

/-- The eight 32-bit working variables / hash words of SHA-256. -/
structure Hash8 where
  a : Nat
  b : Nat
  c : Nat
  d : Nat
  e : Nat
  f : Nat
  g : Nat
  h : Nat

/-- SHA-256 initial hash value. -/
def shaInit : Hash8 :=
  ⟨1779033703, 3144134277, 1013904242, 2773480762,
    1359893119, 2600822924, 528734635, 1541459225⟩

/-- SHA-256 round constants. -/
def shaK : List Nat :=
  [1116352408, 1899447441, 3049323471, 3921009573, 961987163,
   1508970993, 2453635748, 2870763221, 3624381080, 310598401,
   607225278, 1426881987, 1925078388, 2162078206, 2614888103,
   3248222580, 3835390401, 4022224774, 264347078, 604807628,
   770255983, 1249150122, 1555081692, 1996064986, 2554220882,
   2821834349, 2952996808, 3210313671, 3336571891, 3584528711,
   113926993, 338241895, 666307205, 773529912, 1294757372,
   1396182291, 1695183700, 1986661051, 2177026350, 2456956037,
   2730485921, 2820302411, 3259730800, 3345764771, 3516065817,
   3600352804, 4094571909, 275423344, 430227734, 506948616,
   659060556, 883997877, 958139571, 1322822218, 1537002063,
   1747873779, 1955562222, 2024104815, 2227730452, 2361852424,
   2428436474, 2756734187, 3204031479, 3329325298]

/-- One SHA-256 compression round; `kw` is the round constant plus the
schedule word. -/
def roundStep (st : Hash8) (kw : Nat) : Hash8 :=
  let t1 := (st.h + bigSigma1 st.e + chF st.e st.f st.g + kw) % m32
  let t2 := (bigSigma0 st.a + majF st.a st.b st.c) % m32
  ⟨(t1 + t2) % m32, st.a, st.b, st.c, (st.d + t1) % m32, st.e, st.f, st.g⟩

/-- Extend the message schedule; the accumulator holds the schedule words
most recent first. -/
def scheduleExt : Nat → List Nat → List Nat
  | 0, acc => acc
  | n + 1, acc =>
    let w2 := acc.getD 1 0
    let w7 := acc.getD 6 0
    let w15 := acc.getD 14 0
    let w16 := acc.getD 15 0
    scheduleExt n (((w16 + smallSigma0 w15 + w7 + smallSigma1 w2) % m32) :: acc)

/-- The 64-word message schedule of a chunk. -/
def schedule (ws : List Nat) : List Nat := (scheduleExt 48 ws.reverse).reverse

/-- Compress one 16-word chunk into the hash state. -/
def compressChunk (st : Hash8) (chunk : List Nat) : Hash8 :=
  let t := (shaK.zip (schedule chunk)).foldl (fun s kw => roundStep s ((kw.1 + kw.2) % m32)) st
  ⟨(st.a + t.a) % m32, (st.b + t.b) % m32, (st.c + t.c) % m32, (st.d + t.d) % m32,
   (st.e + t.e) % m32, (st.f + t.f) % m32, (st.g + t.g) % m32, (st.h + t.h) % m32⟩

/-- The 8-byte big-endian bit-length block of SHA-256 padding. -/
def lenBytes (n : Nat) : List Nat :=
  [(n >>> 56) % 256, (n >>> 48) % 256, (n >>> 40) % 256, (n >>> 32) % 256,
   (n >>> 24) % 256, (n >>> 16) % 256, (n >>> 8) % 256, n % 256]

/-- SHA-256 message padding to a multiple of 64 bytes. -/
def sha256pad (msg : List Nat) : List Nat :=
  let r := msg.length % 64
  let zeros := if r < 56 then 55 - r else 119 - r
  msg ++ 128 :: (List.replicate zeros 0 ++ lenBytes (msg.length * 8))

/-- Group bytes into big-endian 32-bit words. -/
def toWords : List Nat → List Nat
  | b0 :: b1 :: b2 :: b3 :: rest => (b0 * 16777216 + b1 * 65536 + b2 * 256 + b3) :: toWords rest
  | _ => []

/-- Split a word list into chunks of 16 (fuel-driven). -/
def toChunksAux : Nat → List Nat → List (List Nat)
  | 0, _ => []
  | _, [] => []
  | n + 1, l => l.take 16 :: toChunksAux n (l.drop 16)

/-- Split a word list into chunks of 16 words. -/
def toChunks (l : List Nat) : List (List Nat) := toChunksAux l.length l

/-- The SHA-256 digest of a byte sequence, as eight 32-bit words. -/
def sha256Words (msg : List Nat) : Hash8 :=
  (toChunks (toWords (sha256pad msg))).foldl compressChunk shaInit

/-- Eight lowercase hex digits of a 32-bit word. -/
def wordHex (w : Nat) : List Char :=
  [hexDigitChar ((w >>> 28) % 16), hexDigitChar ((w >>> 24) % 16), hexDigitChar ((w >>> 20) % 16),
   hexDigitChar ((w >>> 16) % 16), hexDigitChar ((w >>> 12) % 16), hexDigitChar ((w >>> 8) % 16),
   hexDigitChar ((w >>> 4) % 16), hexDigitChar (w % 16)]

/-- `createHash('sha256').update(m).digest('hex')`: the 64 lowercase hex
characters of the SHA-256 digest. -/
def sha256hexChars (msg : List Nat) : List Char :=
  let st := sha256Words msg
  wordHex st.a ++ wordHex st.b ++ wordHex st.c ++ wordHex st.d ++
    wordHex st.e ++ wordHex st.f ++ wordHex st.g ++ wordHex st.h

/-- `generateIdempotencyKey` (utils/idempotency): canonicalize the
parameters with `sortObjectKeys`, serialize with `JSON.stringify`, hash
`` `${operation}:${paramsString}` `` with SHA-256, keep the first 32 hex
characters, and return `` `${operation}-${hash}` ``. -/
def generateIdempotencyKey (operation : String) (params : Value) : String :=
  let paramsString := jsonStringify (sortObjectKeys params)
  let hash := String.mk ((sha256hexChars (utf8Bytes (operation ++ ":" ++ paramsString))).take 32)
  operation ++ "-" ++ hash

/-- No string occurs twice in the list (JavaScript object keys). -/
def nodupKeysB : List String → Bool
  | [] => true
  | k :: ks => (! ks.contains k) && nodupKeysB ks

mutual
/-- Every object anywhere inside the value has pairwise distinct keys —
automatically true of values built from JavaScript objects. -/
def deepNodup : Value → Bool
  | .vNull => true
  | .vUndefined => true
  | .vBool _ => true
  | .vNum _ => true
  | .vStr _ => true
  | .vArr xs => deepNodupVL xs
  | .vObj fs => nodupKeysB (FList.keys fs) && deepNodupFL fs

def deepNodupVL : VList → Bool
  | .nil => true
  | .cons v vs => deepNodup v && deepNodupVL vs

def deepNodupFL : FList → Bool
  | .nil => true
  | .cons _ v fs => deepNodup v && deepNodupFL fs
end

mutual
/-- Canonicalization as the specification words it, as a second
definition to compare with `sortObjectKeys`: for a mapping, a new mapping
whose keys are sorted in ascending lexicographic order with each value
recursively canonicalized; for a sequence, a sequence of the same length
with each element recursively canonicalized in its original order; any
other value unchanged.  Sorting is by `List.mergeSort`, deliberately a
different algorithm from the implementation's. -/
def canonicalize : Value → Value
  | .vNull => .vNull
  | .vUndefined => .vUndefined
  | .vBool b => .vBool b
  | .vNum n => .vNum n
  | .vStr s => .vStr s
  | .vArr xs => .vArr (canonVL xs)
  | .vObj fs => .vObj (FList.ofList ((canonFL fs).mergeSort (fun a b => jsStrLe a.1 b.1)))

def canonVL : VList → VList
  | .nil => .nil
  | .cons v vs => .cons (canonicalize v) (canonVL vs)

def canonFL : FList → List (String × Value)
  | .nil => []
  | .cons k v fs => (k, canonicalize v) :: canonFL fs
end

/-- The metadata filtering step as the specification words it: drop every
entry whose value is `undefined` or `null`, coerce the value of every
surviving entry to its string representation. -/
def specFilterMeta (m : List (String × Value)) : List (String × String) :=
  m.filterMap fun kv =>
    match kv.2 with
    | .vUndefined => none
    | .vNull => none
    | v => some (kv.1, jsToString v)

/-- Two values are equal up to a permutation of the properties of the
objects occurring in them (the same key-value pairs, possibly nested,
enumerated in a different insertion order).  The object constructors
mirror `List.Perm`: keep a head property, swap two adjacent properties,
or chain permutations. -/
inductive VEquiv : Value → Value → Prop where
  | vnull : VEquiv .vNull .vNull
  | vundef : VEquiv .vUndefined .vUndefined
  | vbool (b : Bool) : VEquiv (.vBool b) (.vBool b)
  | vnum (n : Int) : VEquiv (.vNum n) (.vNum n)
  | vstr (s : String) : VEquiv (.vStr s) (.vStr s)
  | arrnil : VEquiv (.vArr .nil) (.vArr .nil)
  | arrcons {v w : Value} {xs ys : VList} : VEquiv v w → VEquiv (.vArr xs) (.vArr ys) →
      VEquiv (.vArr (.cons v xs)) (.vArr (.cons w ys))
  | objnil : VEquiv (.vObj .nil) (.vObj .nil)
  | objcons (k : String) {v w : Value} {fs gs : FList} : VEquiv v w →
      VEquiv (.vObj fs) (.vObj gs) → VEquiv (.vObj (.cons k v fs)) (.vObj (.cons k w gs))
  | objswap (k₁ k₂ : String) (v₁ v₂ : Value) (fs : FList) :
      VEquiv (.vObj (.cons k₁ v₁ (.cons k₂ v₂ fs))) (.vObj (.cons k₂ v₂ (.cons k₁ v₁ fs)))
  | objtrans {fs gs hs : FList} : VEquiv (.vObj fs) (.vObj gs) → VEquiv (.vObj gs) (.vObj hs) →
      VEquiv (.vObj fs) (.vObj hs)

/-! ## Order properties of the JavaScript string comparison -/

theorem charListLt_asymm :
    ∀ {a b : List Char}, charListLt a b = true → charListLt b a = false := by
  intro a
  induction a with
  | nil =>
    intro b h
    cases b with
    | nil => simp [charListLt] at h
    | cons y ys => simp [charListLt]
  | cons x xs ih =>
    intro b h
    cases b with
    | nil => simp [charListLt] at h
    | cons y ys =>
      simp only [charListLt] at h ⊢
      by_cases hxy : x < y
      · rw [if_neg (lt_asymm hxy), if_pos hxy]
      · rw [if_neg hxy] at h
        by_cases hyx : y < x
        · rw [if_pos hyx] at h
          exact absurd h (by simp)
        · rw [if_neg hyx] at h
          rw [if_neg hyx, if_neg hxy]
          exact ih h

theorem charListLt_trans :
    ∀ {a b c : List Char}, charListLt a b = true → charListLt b c = true →
      charListLt a c = true := by
  intro a
  induction a with
  | nil =>
    intro b c hab hbc
    cases b with
    | nil => simp [charListLt] at hab
    | cons y ys =>
      cases c with
      | nil => simp [charListLt] at hbc
      | cons z zs => simp [charListLt]
  | cons x xs ih =>
    intro b c hab hbc
    cases b with
    | nil => simp [charListLt] at hab
    | cons y ys =>
      cases c with
      | nil => simp [charListLt] at hbc
      | cons z zs =>
        simp only [charListLt] at hab hbc ⊢
        by_cases hxy : x < y
        · rw [if_pos hxy] at hab
          by_cases hyz : y < z
          · rw [if_pos (lt_trans hxy hyz)]
          · rw [if_neg hyz] at hbc
            by_cases hzy : z < y
            · rw [if_pos hzy] at hbc
              exact absurd hbc (by simp)
            · have hyzeq : y = z := le_antisymm (le_of_not_lt hzy) (le_of_not_lt hyz)
              rw [if_pos (hyzeq ▸ hxy)]
        · rw [if_neg hxy] at hab
          by_cases hyx : y < x
          · rw [if_pos hyx] at hab
            exact absurd hab (by simp)
          · have hxyeq : x = y := le_antisymm (le_of_not_lt hyx) (le_of_not_lt hxy)
            subst hxyeq
            rw [if_neg hxy] at hab
            by_cases hxz : x < z
            · rw [if_pos hxz]
            · rw [if_neg hxz] at hbc ⊢
              by_cases hzx : z < x
              · rw [if_pos hzx] at hbc
                exact absurd hbc (by simp)
              · rw [if_neg hzx] at hbc ⊢
                exact ih hab hbc

theorem charListLt_eq_of_not :
    ∀ {a b : List Char}, charListLt a b = false → charListLt b a = false → a = b := by
  intro a
  induction a with
  | nil =>
    intro b hab _
    cases b with
    | nil => rfl
    | cons y ys => simp [charListLt] at hab
  | cons x xs ih =>
    intro b hab hba
    cases b with
    | nil => simp [charListLt] at hba
    | cons y ys =>
      simp only [charListLt] at hab hba
      by_cases hxy : x < y
      · rw [if_pos hxy] at hab
        exact absurd hab (by simp)
      · by_cases hyx : y < x
        · rw [if_pos hyx] at hba
          exact absurd hba (by simp)
        · rw [if_neg hxy, if_neg hyx] at hab
          rw [if_neg hyx, if_neg hxy] at hba
          have hxyeq : x = y := le_antisymm (le_of_not_lt hyx) (le_of_not_lt hxy)
          rw [hxyeq, ih hab hba]

theorem jsStrLe_total (a b : String) : jsStrLe a b = true ∨ jsStrLe b a = true := by
  by_cases h : charListLt b.data a.data = true
  · right
    simp only [jsStrLe, jsStrLt]
    rw [charListLt_asymm h]
    rfl
  · left
    simp only [jsStrLe, jsStrLt]
    simp only [Bool.not_eq_true] at h
    rw [h]
    rfl

theorem jsStrLt_of_not_le {a b : String} (h : ¬ jsStrLe a b = true) : jsStrLt b a = true := by
  have hf : jsStrLe a b = false := Bool.eq_false_iff.mpr h
  simp only [jsStrLe, Bool.not_eq_false'] at hf
  exact hf

theorem jsStrLe_antisymm {a b : String} (hab : jsStrLe a b = true) (hba : jsStrLe b a = true) :
    a = b := by
  simp only [jsStrLe, jsStrLt, Bool.not_eq_true'] at hab hba
  cases a with
  | mk da =>
    cases b with
    | mk db =>
      have : da = db := charListLt_eq_of_not hba hab
      rw [this]

theorem jsStrLe_trans {a b c : String} (hab : jsStrLe a b = true) (hbc : jsStrLe b c = true) :
    jsStrLe a c = true := by
  simp only [jsStrLe, jsStrLt, Bool.not_eq_true'] at hab hbc ⊢
  by_cases hca : charListLt c.data a.data = true
  · by_cases hbc2 : charListLt b.data c.data = true
    · have hba : charListLt b.data a.data = true := charListLt_trans hbc2 hca
      rw [hba] at hab
      exact absurd hab (by simp)
    · have hbceq : b.data = c.data :=
        charListLt_eq_of_not (by simpa using hbc2) hbc
      rw [← hbceq] at hca
      rw [hca] at hab
      exact absurd hab (by simp)
  · simpa using hca

/-! ## Sorting machinery for object keys -/

/-- Strict key order on object properties. -/
def fieldLt (a b : String × Value) : Prop := jsStrLt a.1 b.1 = true

instance : IsTotal (String × Value) fieldLe := ⟨fun a b => jsStrLe_total a.1 b.1⟩

instance : IsTrans (String × Value) fieldLe := ⟨fun _ _ _ => jsStrLe_trans⟩

instance : IsAntisymm (String × Value) fieldLt := by
  constructor
  intro a b hab hba
  have h1 : charListLt a.1.data b.1.data = true := hab
  have h2 : charListLt b.1.data a.1.data = true := hba
  rw [charListLt_asymm h1] at h2
  exact absurd h2 (by simp)

theorem pairwise_combine {α : Type} {R S T : α → α → Prop} :
    ∀ {l : List α}, List.Pairwise R l → List.Pairwise S l →
      (∀ a b, R a b → S a b → T a b) → List.Pairwise T l := by
  intro l
  induction l with
  | nil =>
    intro _ _ _
    exact List.Pairwise.nil
  | cons x xs ih =>
    intro h1 h2 himp
    rw [List.pairwise_cons] at h1 h2 ⊢
    exact ⟨fun b hb => himp _ _ (h1.1 b hb) (h2.1 b hb), ih h1.2 h2.2 himp⟩

theorem fieldLe_ne_lt {a b : String × Value} (hle : fieldLe a b) (hne : a.1 ≠ b.1) :
    fieldLt a b := by
  by_cases h : jsStrLt a.1 b.1 = true
  · exact h
  · have h1 : charListLt a.1.data b.1.data = false := by simpa [jsStrLt] using h
    have h2 : charListLt b.1.data a.1.data = false := by
      have hh : jsStrLe a.1 b.1 = true := hle
      simpa [jsStrLe, jsStrLt, Bool.not_eq_true'] using hh
    have hdata : a.1.data = b.1.data := charListLt_eq_of_not h1 h2
    exact absurd (String.ext hdata) hne

theorem sorted_lt_of_le_nodup {l : List (String × Value)} (hs : List.Sorted fieldLe l)
    (hn : (l.map Prod.fst).Nodup) : List.Sorted fieldLt l := by
  have hne : List.Pairwise (fun a b : String × Value => a.1 ≠ b.1) l := by
    rw [List.Nodup, List.pairwise_map] at hn
    exact hn
  exact pairwise_combine hs hne (fun a b h1 h2 => fieldLe_ne_lt h1 h2)

theorem insertionSort_sorted_lt {l : List (String × Value)} (hn : (l.map Prod.fst).Nodup) :
    List.Sorted fieldLt (List.insertionSort fieldLe l) := by
  apply sorted_lt_of_le_nodup (List.sorted_insertionSort fieldLe l)
  have hp : List.Perm ((List.insertionSort fieldLe l).map Prod.fst) (l.map Prod.fst) :=
    (List.perm_insertionSort fieldLe l).map _
  exact hp.nodup_iff.mpr hn

theorem isort_eq_of_perm {l₁ l₂ : List (String × Value)} (hp : List.Perm l₁ l₂)
    (hn : (l₁.map Prod.fst).Nodup) :
    List.insertionSort fieldLe l₁ = List.insertionSort fieldLe l₂ := by
  apply List.eq_of_perm_of_sorted (r := fieldLt)
  · exact (List.perm_insertionSort fieldLe l₁).trans
      (hp.trans (List.perm_insertionSort fieldLe l₂).symm)
  · exact insertionSort_sorted_lt hn
  · exact insertionSort_sorted_lt (((hp.map Prod.fst).nodup_iff).mp hn)

theorem isort_eq_mergeSort {l : List (String × Value)} (hn : (l.map Prod.fst).Nodup) :
    List.insertionSort fieldLe l = l.mergeSort (fun a b => jsStrLe a.1 b.1) := by
  apply List.eq_of_perm_of_sorted (r := fieldLt)
  · exact (List.perm_insertionSort fieldLe l).trans
      (List.mergeSort_perm l (fun a b => jsStrLe a.1 b.1)).symm
  · exact insertionSort_sorted_lt hn
  · have hs : List.Pairwise
        (fun a b : String × Value => jsStrLe a.1 b.1 = true)
        (l.mergeSort (fun a b => jsStrLe a.1 b.1)) :=
      @List.sorted_mergeSort (String × Value) (fun a b => jsStrLe a.1 b.1)
        (fun a b c hab hbc => jsStrLe_trans hab hbc)
        (fun a b => by
          rcases jsStrLe_total a.1 b.1 with h | h <;> simp [h])
        l
    have hnm : ((l.mergeSort (fun a b => jsStrLe a.1 b.1)).map Prod.fst).Nodup :=
      (((List.mergeSort_perm l (fun a b => jsStrLe a.1 b.1)).map Prod.fst).nodup_iff).mpr hn
    exact sorted_lt_of_le_nodup hs hnm

/-! ## Conversion lemmas between object payloads and association lists -/

theorem FList.toList_ofList : ∀ (l : List (String × Value)), (FList.ofList l).toList = l
  | [] => rfl
  | (k, v) :: fs => by
    simp only [FList.ofList, FList.toList]
    exact congrArg _ (FList.toList_ofList fs)

theorem FList.ofList_inj {l₁ l₂ : List (String × Value)}
    (h : FList.ofList l₁ = FList.ofList l₂) : l₁ = l₂ := by
  have := congrArg FList.toList h
  rwa [FList.toList_ofList, FList.toList_ofList] at this

theorem sortFL_ofList (l : List (String × Value)) :
    sortFL (FList.ofList l) = l.map (fun kv => (kv.1, sortObjectKeys kv.2)) := by
  induction l with
  | nil => rfl
  | cons kv fs ih =>
    cases kv with
    | mk k v =>
      simp only [FList.ofList, sortFL, List.map_cons]
      exact congrArg _ ih

theorem sortFL_keys : ∀ (fs : FList), (sortFL fs).map Prod.fst = FList.keys fs
  | .nil => rfl
  | .cons _ _ fs => by
    simp only [sortFL, List.map_cons, FList.keys]
    exact congrArg _ (sortFL_keys fs)

theorem canonFL_keys : ∀ (fs : FList), (canonFL fs).map Prod.fst = FList.keys fs
  | .nil => rfl
  | .cons _ _ fs => by
    simp only [canonFL, List.map_cons, FList.keys]
    exact congrArg _ (canonFL_keys fs)

theorem containsB_iff (ks : List String) (k : String) : ks.contains k = true ↔ k ∈ ks := by
  rw [List.contains_iff_exists_mem_beq]
  constructor
  · rintro ⟨a, ha, hbeq⟩
    rwa [show k = a from by simpa using hbeq]
  · intro h
    exact ⟨k, h, by simp⟩

theorem nodupKeysB_iff : ∀ (ks : List String), nodupKeysB ks = true ↔ ks.Nodup
  | [] => by simp [nodupKeysB]
  | k :: ks => by
    simp only [nodupKeysB, Bool.and_eq_true, Bool.not_eq_true', List.nodup_cons]
    rw [nodupKeysB_iff ks]
    constructor
    · rintro ⟨h1, h2⟩
      refine ⟨fun hmem => ?_, h2⟩
      rw [(containsB_iff ks k).mpr hmem] at h1
      exact absurd h1 (by simp)
    · rintro ⟨h1, h2⟩
      refine ⟨?_, h2⟩
      by_cases hc : ks.contains k = true
      · exact absurd ((containsB_iff ks k).mp hc) h1
      · simpa using hc

/-! ## The implementation's canonicalization matches the specified one -/

mutual
theorem sortObjectKeys_eq_canonicalize :
    ∀ (v : Value), deepNodup v = true → sortObjectKeys v = canonicalize v
  | .vNull, _ => rfl
  | .vUndefined, _ => rfl
  | .vBool _, _ => rfl
  | .vNum _, _ => rfl
  | .vStr _, _ => rfl
  | .vArr xs, h => by
    simp only [sortObjectKeys, canonicalize]
    exact congrArg Value.vArr (sortVL_eq_canonVL xs h)
  | .vObj fs, h => by
    simp only [sortObjectKeys, canonicalize]
    have h' : nodupKeysB (FList.keys fs) = true ∧ deepNodupFL fs = true := by
      simpa only [deepNodup, Bool.and_eq_true] using h
    have hfl : sortFL fs = canonFL fs := sortFL_eq_canonFL fs h'.2
    rw [hfl]
    have hnd : ((canonFL fs).map Prod.fst).Nodup := by
      rw [canonFL_keys]
      exact (nodupKeysB_iff _).mp h'.1
    rw [isort_eq_mergeSort hnd]

theorem sortVL_eq_canonVL :
    ∀ (xs : VList), deepNodupVL xs = true → sortVL xs = canonVL xs
  | .nil, _ => rfl
  | .cons v vs, h => by
    simp only [sortVL, canonVL]
    have h' : deepNodup v = true ∧ deepNodupVL vs = true := by
      simpa only [deepNodupVL, Bool.and_eq_true] using h
    rw [sortObjectKeys_eq_canonicalize v h'.1, sortVL_eq_canonVL vs h'.2]

theorem sortFL_eq_canonFL :
    ∀ (fs : FList), deepNodupFL fs = true → sortFL fs = canonFL fs
  | .nil, _ => rfl
  | .cons k v fs, h => by
    simp only [sortFL, canonFL]
    have h' : deepNodup v = true ∧ deepNodupFL fs = true := by
      simpa only [deepNodupFL, Bool.and_eq_true] using h
    rw [sortObjectKeys_eq_canonicalize v h'.1, sortFL_eq_canonFL fs h'.2]
end

/-! ## Claims C1, C4, C5 -/

/-- C1: for every operation string `o` and every (acyclic, duplicate-free)
structured parameter value `p`, `generateIdempotencyKey o p` equals
`o ++ "-" ++ h`, where `h` is the first 32 lowercase hex characters of the
SHA-256 digest of the UTF-8 bytes of `o ++ ":" ++ s`, and `s` is the
deterministic JSON serialization of the canonicalization of `p` (object
keys sorted ascending with values recursively canonicalized, sequences
kept in order, other values unchanged). -/
theorem claim_C1_key_formula (o : String) (p : Value) (hp : deepNodup p = true) :
    generateIdempotencyKey o p =
      o ++ "-" ++ String.mk
        ((sha256hexChars (utf8Bytes (o ++ ":" ++ jsonStringify (canonicalize p)))).take 32) := by
  show o ++ "-" ++ String.mk
      ((sha256hexChars (utf8Bytes (o ++ ":" ++ jsonStringify (sortObjectKeys p)))).take 32) = _
  rw [sortObjectKeys_eq_canonicalize p hp]

/-- Concrete parameters used to witness `claim_C1_key_formula`. -/
def c1wParams : Value :=
  .vObj (.cons "customerId" (.vStr "cus_123")
    (.cons "amount" (.vNum 1000)
      (.cons "metadata" (.vObj (.cons "redemptionId" (.vStr "redemption_456") .nil)) .nil)))

theorem claim_C1_key_formula_witness :
    deepNodup c1wParams = true ∧
      generateIdempotencyKey "balance-credit" c1wParams =
        "balance-credit" ++ "-" ++ String.mk
          ((sha256hexChars (utf8Bytes
            ("balance-credit" ++ ":" ++ jsonStringify (canonicalize c1wParams)))).take 32) :=
  ⟨by decide, claim_C1_key_formula "balance-credit" c1wParams (by decide)⟩

theorem sha256hexChars_length (msg : List Nat) : (sha256hexChars msg).length = 64 := by
  simp [sha256hexChars, wordHex]

theorem generateIdempotencyKey_length (o : String) (p : Value) :
    (generateIdempotencyKey o p).length = o.length + 33 := by
  show (o ++ "-" ++ String.mk
      ((sha256hexChars (utf8Bytes (o ++ ":" ++ jsonStringify (sortObjectKeys p)))).take 32)).length
    = o.length + 33
  rw [String.length_append, String.length_append]
  have h2 : (String.mk
      ((sha256hexChars (utf8Bytes (o ++ ":" ++ jsonStringify (sortObjectKeys p)))).take 32)).length
      = 32 := by
    show (List.take 32 (sha256hexChars _)).length = 32
    rw [List.length_take, sha256hexChars_length]
    decide
  rw [h2]
  have h1 : ("-" : String).length = 1 := rfl
  rw [h1]

/-- C4 (amended): the derived key has length exactly `o.length + 33`
(operation, one dash, 32 hex characters), so it is at most 255 characters
whenever the operation tag has at most 222 characters — which every
operation tag of this repository satisfies; the bound fails for a
223-character operation string. -/
theorem claim_C4_amended_bounded_length (o : String) (p : Value) (ho : o.length ≤ 222) :
    (generateIdempotencyKey o p).length ≤ 255 := by
  rw [generateIdempotencyKey_length]
  omega

theorem claim_C4_amended_bounded_length_witness :
    ("balance-credit" : String).length ≤ 222 ∧
      (generateIdempotencyKey "balance-credit" Value.vNull).length ≤ 255 :=
  ⟨by decide, claim_C4_amended_bounded_length "balance-credit" Value.vNull (by decide)⟩

/-- The operation tag defeating the unconditional 255-character bound. -/
def c4LongOp : String := String.mk (List.replicate 223 'a')

/-- C4 (counterexample): for the 223-character operation tag the derived
key has 256 characters, so the unconditional claim `len ≤ 255` fails. -/
theorem claim_C4_counterexample :
    ¬ ((generateIdempotencyKey c4LongOp Value.vNull).length ≤ 255) := by
  rw [generateIdempotencyKey_length]
  have h : c4LongOp.length = 223 := by
    show (List.replicate 223 'a').length = 223
    rw [List.length_replicate]
  omega

/-- C5: canonicalization preserves sequence order: reordering the
elements of a nested sequence (here `[1, 2]` against the permuted
`[2, 1]`) changes the derived idempotency key. -/
theorem claim_C5_sequence_order_sensitivity :
    List.Perm [Value.vNum 1, Value.vNum 2] [Value.vNum 2, Value.vNum 1] ∧
    [Value.vNum 1, Value.vNum 2] ≠ [Value.vNum 2, Value.vNum 1] ∧
    generateIdempotencyKey "op"
        (.vObj (.cons "items" (.vArr (VList.ofList [Value.vNum 1, Value.vNum 2])) .nil)) ≠
      generateIdempotencyKey "op"
        (.vObj (.cons "items" (.vArr (VList.ofList [Value.vNum 2, Value.vNum 1])) .nil)) := by
  refine ⟨List.Perm.swap (Value.vNum 2) (Value.vNum 1) [], ?_, ?_⟩
  · intro hcontra
    injection hcontra with h1 h2
    injection h1 with h3
    exact absurd h3 (by decide)
  · decide

/-! ## Claim C2: order independence over object-property permutations -/

theorem vequiv_keysPerm {a b : Value} (h : VEquiv a b) :
    ∀ fs gs : FList, a = .vObj fs → b = .vObj gs →
      List.Perm (FList.keys fs) (FList.keys gs) := by
  induction h with
  | vnull => intro fs gs hfs _; exact Value.noConfusion hfs
  | vundef => intro fs gs hfs _; exact Value.noConfusion hfs
  | vbool b => intro fs gs hfs _; exact Value.noConfusion hfs
  | vnum n => intro fs gs hfs _; exact Value.noConfusion hfs
  | vstr s => intro fs gs hfs _; exact Value.noConfusion hfs
  | arrnil => intro fs gs hfs _; exact Value.noConfusion hfs
  | arrcons _ _ _ _ => intro fs gs hfs _; exact Value.noConfusion hfs
  | objnil =>
    intro fs gs hfs hgs
    cases hfs
    cases hgs
    exact List.Perm.refl _
  | objcons k _ _ ih1 ih2 =>
    intro fs' gs' hfs hgs
    cases hfs
    cases hgs
    simp only [FList.keys]
    exact (ih2 _ _ rfl rfl).cons k
  | objswap k₁ k₂ v₁ v₂ fs =>
    intro fs' gs' hfs hgs
    cases hfs
    cases hgs
    simp only [FList.keys]
    exact List.Perm.swap k₂ k₁ _
  | objtrans _ _ ih1 ih2 =>
    intro fs' gs' hfs hgs
    exact (ih1 _ _ hfs rfl).trans (ih2 _ _ rfl hgs)

theorem vequiv_deepNodup {a b : Value} (h : VEquiv a b) (ha : deepNodup a = true) :
    deepNodup b = true := by
  induction h with
  | vnull => exact ha
  | vundef => exact ha
  | vbool b => exact ha
  | vnum n => exact ha
  | vstr s => exact ha
  | arrnil => exact ha
  | arrcons _ _ ih1 ih2 =>
    simp only [deepNodup, deepNodupVL, Bool.and_eq_true] at ha ⊢
    refine ⟨ih1 ha.1, ?_⟩
    have h2 := ih2 (show deepNodup (.vArr _) = true by
      simp only [deepNodup]
      exact ha.2)
    simpa only [deepNodup] using h2
  | objnil => exact ha
  | objcons k hv hobj ih1 ih2 =>
    rename_i v w fs gs
    simp only [deepNodup, deepNodupFL, FList.keys, nodupKeysB,
      Bool.and_eq_true, Bool.not_eq_true'] at ha ⊢
    obtain ⟨⟨hcont, hnd⟩, hdv, hdfl⟩ := ha
    have hkeys := vequiv_keysPerm hobj fs gs rfl rfl
    have h2 := ih2 (show deepNodup (.vObj fs) = true by
      simp only [deepNodup, Bool.and_eq_true]
      exact ⟨hnd, hdfl⟩)
    simp only [deepNodup, Bool.and_eq_true] at h2
    refine ⟨⟨?_, h2.1⟩, ih1 hdv, h2.2⟩
    by_cases hc : (FList.keys gs).contains k = true
    · have hmem := (containsB_iff _ k).mp hc
      have hmem' := hkeys.mem_iff.mpr hmem
      rw [(containsB_iff _ k).mpr hmem'] at hcont
      exact absurd hcont (by simp)
    · simpa using hc
  | objswap k₁ k₂ v₁ v₂ fs =>
    simp only [deepNodup, deepNodupFL, FList.keys, nodupKeysB,
      Bool.and_eq_true, Bool.not_eq_true'] at ha ⊢
    obtain ⟨⟨h1, h2, h3⟩, h4, h5, h6⟩ := ha
    simp only [List.contains_cons, Bool.or_eq_false_iff] at h1 ⊢
    refine ⟨⟨?_, ?_, h3⟩, h5, h4, h6⟩
    · refine ⟨?_, h2⟩
      by_cases hbe : (k₂ == k₁) = true
      · have : (k₁ == k₂) = true := by
          rw [show k₂ = k₁ from by simpa using hbe]
          simp
        rw [this] at h1
        exact absurd h1.1 (by simp)
      · simpa using hbe
    · exact h1.2
  | objtrans _ _ ih1 ih2 => exact ih2 (ih1 ha)

theorem vequiv_sort_eq {a b : Value} (h : VEquiv a b) (ha : deepNodup a = true) :
    sortObjectKeys a = sortObjectKeys b := by
  induction h with
  | vnull => rfl
  | vundef => rfl
  | vbool b => rfl
  | vnum n => rfl
  | vstr s => rfl
  | arrnil => rfl
  | arrcons hv hxs ih1 ih2 =>
    rename_i v w xs ys
    simp only [deepNodup, deepNodupVL, Bool.and_eq_true] at ha
    have e1 := ih1 ha.1
    have e2 := ih2 (show deepNodup (.vArr xs) = true by
      simp only [deepNodup]
      exact ha.2)
    simp only [sortObjectKeys] at e2
    injection e2 with e2'
    simp only [sortObjectKeys, sortVL]
    rw [e1, e2']
  | objnil => rfl
  | objcons k hv hobj ih1 ih2 =>
    rename_i v w fs gs
    simp only [deepNodup, deepNodupFL, FList.keys, nodupKeysB,
      Bool.and_eq_true, Bool.not_eq_true'] at ha
    obtain ⟨⟨hcont, hnd⟩, hdv, hdfl⟩ := ha
    have e1 := ih1 hdv
    have e2 := ih2 (show deepNodup (.vObj fs) = true by
      simp only [deepNodup, Bool.and_eq_true]
      exact ⟨hnd, hdfl⟩)
    simp only [sortObjectKeys] at e2
    injection e2 with e2'
    have e3 : List.insertionSort fieldLe (sortFL fs) = List.insertionSort fieldLe (sortFL gs) :=
      FList.ofList_inj e2'
    simp only [sortObjectKeys, sortFL, List.insertionSort]
    rw [e1, e3]
  | objswap k₁ k₂ v₁ v₂ fs =>
    simp only [deepNodup, deepNodupFL, FList.keys, nodupKeysB,
      Bool.and_eq_true, Bool.not_eq_true'] at ha
    obtain ⟨⟨h1, h2, h3⟩, _⟩ := ha
    simp only [sortObjectKeys, sortFL]
    congr 1
    congr 1
    apply isort_eq_of_perm
    · exact List.Perm.swap (k₂, sortObjectKeys v₂) (k₁, sortObjectKeys v₁) (sortFL fs)
    · simp only [List.map_cons, sortFL_keys]
      simp only [List.contains_cons, Bool.or_eq_false_iff] at h1
      rw [List.nodup_cons, List.nodup_cons]
      refine ⟨?_, ?_, (nodupKeysB_iff _).mp h3⟩
      · intro hmem
        rcases List.mem_cons.mp hmem with heq | hmem'
        · rw [heq] at h1
          have : (k₂ == k₂) = true := by simp
          rw [this] at h1
          exact absurd h1.1 (by simp)
        · rw [(containsB_iff _ k₁).mpr hmem'] at h1
          exact absurd h1.2 (by simp)
      · intro hmem
        rw [(containsB_iff _ k₂).mpr hmem] at h2
        exact absurd h2 (by simp)
  | objtrans hfg hgh ih1 ih2 =>
    exact (ih1 ha).trans (ih2 (vequiv_deepNodup hfg ha))

/-- C2: for every operation string `o`, every object value `m` (with the
duplicate-free keys every JavaScript object has), and every permutation
`m'` of its properties — the same key-value pairs, possibly nested,
enumerated in a different insertion order — the derived idempotency keys
coincide. -/
theorem claim_C2_order_independence (o : String) (m m' : Value) (hperm : VEquiv m m')
    (hnd : deepNodup m = true) :
    generateIdempotencyKey o m = generateIdempotencyKey o m' := by
  show o ++ "-" ++ String.mk
      ((sha256hexChars (utf8Bytes (o ++ ":" ++ jsonStringify (sortObjectKeys m)))).take 32) = _
  rw [vequiv_sort_eq hperm hnd]
  rfl

/-- Concrete object for the C2 witness. -/
def c2wA : Value := .vObj (.cons "a" (.vStr "1") (.cons "b" (.vNum 2) .nil))

/-- `c2wA` with its two properties enumerated in the other order. -/
def c2wB : Value := .vObj (.cons "b" (.vNum 2) (.cons "a" (.vStr "1") .nil))

theorem claim_C2_order_independence_witness :
    VEquiv c2wA c2wB ∧ deepNodup c2wA = true ∧
      generateIdempotencyKey "op" c2wA = generateIdempotencyKey "op" c2wB :=
  ⟨VEquiv.objswap "a" "b" (.vStr "1") (.vNum 2) .nil, by decide,
    claim_C2_order_independence "op" c2wA c2wB
      (VEquiv.objswap "a" "b" (.vStr "1") (.vNum 2) .nil) (by decide)⟩

/-! ## Metadata sanitizer lemmas -/

theorem objSet_fresh {l : List (String × String)} {k : String}
    (hk : k ∉ l.map Prod.fst) (v : String) : objSet l k v = l ++ [(k, v)] := by
  induction l with
  | nil => rfl
  | cons kv rest ih =>
    simp only [List.map_cons, List.mem_cons] at hk
    push_neg at hk
    cases kv with
    | mk k' v' =>
      simp only [objSet]
      rw [if_neg (fun hh : k' = k => hk.1 hh.symm)]
      rw [ih hk.2]
      simp

theorem specFilterMeta_cons (k : String) (v : Value) (m : List (String × Value)) :
    specFilterMeta ((k, v) :: m) =
      if isAbsent v = true then specFilterMeta m
      else (k, jsToString v) :: specFilterMeta m := by
  cases v <;> rfl

theorem metaFilter_spec :
    ∀ (m : List (String × Value)) (acc : List (String × String)),
      (m.map Prod.fst).Nodup →
      (∀ k ∈ m.map Prod.fst, k ∉ acc.map Prod.fst) →
      metaFilter m acc = acc ++ specFilterMeta m
  | [], acc, _, _ => by simp [metaFilter, specFilterMeta]
  | (k, v) :: m, acc, hnd, hdisj => by
    simp only [List.map_cons, List.nodup_cons] at hnd
    rw [specFilterMeta_cons]
    simp only [metaFilter]
    by_cases hab : isAbsent v = true
    · rw [if_pos hab, if_pos hab]
      exact metaFilter_spec m acc hnd.2
        (fun k' hk' => hdisj k' (List.mem_cons_of_mem _ hk'))
    · rw [if_neg hab, if_neg hab]
      have hkfresh : k ∉ acc.map Prod.fst := hdisj k (List.mem_cons_self _ _)
      rw [metaFilter_spec m (objSet acc k (jsToString v)) hnd.2 ?_]
      · rw [objSet_fresh hkfresh]
        simp
      · intro k' hk'
        rw [objSet_fresh hkfresh]
        simp only [List.map_append, List.mem_append, List.map_cons, List.map_nil,
          List.mem_singleton]
        rintro (hin | heq)
        · exact hdisj k' (List.mem_cons_of_mem _ hk') hin
        · exact hnd.1 (heq ▸ hk')

theorem metaSanitize_spec :
    ∀ (l acc : List (String × String)),
      (l.map Prod.fst).Nodup →
      (∀ k ∈ l.map Prod.fst, k ∉ acc.map Prod.fst) →
      (∀ kv ∈ l, kv.1.length ≤ 40 ∧ kv.2.length ≤ 500) →
      metaSanitize l acc = acc ++ l
  | [], acc, _, _, _ => by simp [metaSanitize]
  | (k, v) :: l, acc, hnd, hdisj, hbnd => by
    simp only [List.map_cons, List.nodup_cons] at hnd
    have hb := hbnd (k, v) (List.mem_cons_self _ _)
    have hb1 : k.length ≤ 40 := hb.1
    have hb2 : v.length ≤ 500 := hb.2
    have htk : truncKey k = k := by
      unfold truncKey
      rw [if_neg (by omega)]
    have htv : truncVal v = v := by
      unfold truncVal
      rw [if_neg (by omega)]
    simp only [metaSanitize, htk, htv]
    have hkfresh : k ∉ acc.map Prod.fst := hdisj k (List.mem_cons_self _ _)
    rw [objSet_fresh hkfresh]
    rw [metaSanitize_spec l (acc ++ [(k, v)]) hnd.2 ?_ ?_]
    · simp
    · intro k' hk'
      simp only [List.map_append, List.mem_append, List.map_cons, List.map_nil,
        List.mem_singleton]
      rintro (hin | heq)
      · exact hdisj k' (List.mem_cons_of_mem _ hk') hin
      · exact hnd.1 (heq ▸ hk')
    · intro kv hkv
      exact hbnd kv (List.mem_cons_of_mem _ hkv)

theorem specFilterMeta_lift (m : List (String × String)) :
    specFilterMeta (liftMeta m) = m := by
  induction m with
  | nil => rfl
  | cons kv rest ih =>
    cases kv with
    | mk k v =>
      simp only [liftMeta, List.map_cons] at *
      rw [show specFilterMeta ((k, Value.vStr v) :: rest.map fun kv => (kv.1, Value.vStr kv.2))
          = (k, v) :: specFilterMeta (rest.map fun kv => (kv.1, Value.vStr kv.2)) from rfl]
      rw [ih]

theorem liftMeta_keys (m : List (String × String)) :
    (liftMeta m).map Prod.fst = m.map Prod.fst := by
  simp [liftMeta, List.map_map]

theorem createMetadata_of_bounded (m : List (String × String))
    (hnd : (m.map Prod.fst).Nodup) (hlen : m.length ≤ 50)
    (hbnd : ∀ kv ∈ m, kv.1.length ≤ 40 ∧ kv.2.length ≤ 500) :
    createMetadata (liftMeta m) = m := by
  have hf : metaFilter (liftMeta m) [] = specFilterMeta (liftMeta m) := by
    have := metaFilter_spec (liftMeta m) []
      (by rw [liftMeta_keys]; exact hnd) (by simp)
    simpa using this
  simp only [createMetadata]
  rw [hf, specFilterMeta_lift]
  rw [if_neg (by omega)]
  have := metaSanitize_spec m [] hnd (by simp) hbnd
  simpa using this

/-- C6: `createMetadata` drops exactly the entries whose value is
`undefined` or `null` and coerces every surviving value to its string
representation (never leaking the literal strings `"undefined"`/`"null"`
from absent values); in particular
`createMetadata {a: "1", b: undefined, c: null} = {a: "1"}`. -/
theorem claim_C6_absent_dropping :
    (∀ (m : List (String × Value)), (m.map Prod.fst).Nodup →
        metaFilter m [] = specFilterMeta m) ∧
      createMetadata [("a", Value.vStr "1"), ("b", Value.vUndefined), ("c", Value.vNull)]
        = [("a", "1")] := by
  constructor
  · intro m hnd
    have := metaFilter_spec m [] hnd (by simp)
    simpa using this
  · decide

theorem claim_C6_absent_dropping_witness :
    ((([("a", Value.vStr "1"), ("b", Value.vUndefined), ("c", Value.vNull)]
        : List (String × Value)).map Prod.fst).Nodup) ∧
      metaFilter [("a", Value.vStr "1"), ("b", Value.vUndefined), ("c", Value.vNull)] []
        = specFilterMeta [("a", Value.vStr "1"), ("b", Value.vUndefined), ("c", Value.vNull)] :=
  ⟨by decide, claim_C6_absent_dropping.1
    [("a", Value.vStr "1"), ("b", Value.vUndefined), ("c", Value.vNull)] (by decide)⟩

/-- C8: `createMetadata` is idempotent on already-bounded string-valued
inputs: if `m` has at most 50 entries, duplicate-free keys, keys of at
most 40 characters and values of at most 500 characters, then sanitizing
twice equals sanitizing once. -/
theorem claim_C8_sanitizer_idempotent (m : List (String × String))
    (hnd : (m.map Prod.fst).Nodup) (hlen : m.length ≤ 50)
    (hbnd : ∀ kv ∈ m, kv.1.length ≤ 40 ∧ kv.2.length ≤ 500) :
    createMetadata (liftMeta (createMetadata (liftMeta m))) = createMetadata (liftMeta m) := by
  rw [createMetadata_of_bounded m hnd hlen hbnd, createMetadata_of_bounded m hnd hlen hbnd]

theorem claim_C8_sanitizer_idempotent_witness :
    ((([("a", "1"), ("b", "2")] : List (String × String)).map Prod.fst).Nodup) ∧
      ([("a", "1"), ("b", "2")] : List (String × String)).length ≤ 50 ∧
      (∀ kv ∈ ([("a", "1"), ("b", "2")] : List (String × String)),
        kv.1.length ≤ 40 ∧ kv.2.length ≤ 500) ∧
      createMetadata (liftMeta (createMetadata (liftMeta [("a", "1"), ("b", "2")])))
        = createMetadata (liftMeta [("a", "1"), ("b", "2")]) :=
  ⟨by decide, by decide, by decide,
    claim_C8_sanitizer_idempotent [("a", "1"), ("b", "2")] (by decide) (by decide) (by decide)⟩

/-! ## Claims C3 and C7 -/

/-- The failing input for claim C3: 51 entries whose `i`-th key is the
letter `a` repeated `i+1` times (all keys distinct, all values the
string `"v"`; the key of 50 characters survives the entry-count
truncation untouched). -/
def c3BadMeta : List (String × Value) :=
  (List.range 51).map fun i => (String.mk (List.replicate (i + 1) 'a'), Value.vStr "v")

/-- C3 fails on the code: on `c3BadMeta` the function takes the
over-50-entries early return, which truncates only the entry count, so
the output keeps a key of 50 characters — more than the claimed
40-character key bound. -/
theorem claim_C3_code_evaluation :
    (createMetadata c3BadMeta).length = 50 ∧
      (String.mk (List.replicate 50 'a'), "v") ∈ createMetadata c3BadMeta ∧
      40 < (String.mk (List.replicate 50 'a')).length := by
  refine ⟨by decide, by decide, by decide⟩

/-- The bounded raw entries of the C7 thousand-entry stress input. -/
def c7BigRaw : List (String × String) :=
  (List.range 1000).map fun i => (String.mk (List.replicate (i + 1) 'a'), "v")

/-- The thousand-entry stress input of claim C7. -/
def c7BigMeta : List (String × Value) := liftMeta c7BigRaw

theorem c7BigRaw_keys_nodup : (c7BigRaw.map Prod.fst).Nodup := by
  have : c7BigRaw.map Prod.fst
      = (List.range 1000).map fun i => String.mk (List.replicate (i + 1) 'a') := by
    simp [c7BigRaw, List.map_map]
  rw [this]
  apply List.Nodup.map ?_ (List.nodup_range 1000)
  intro i j hij
  have hdata : List.replicate (i + 1) 'a' = List.replicate (j + 1) 'a' :=
    congrArg String.data hij
  have hlen : (List.replicate (i + 1) 'a').length = (List.replicate (j + 1) 'a').length :=
    congrArg List.length hdata
  simp only [List.length_replicate] at hlen
  omega

/-- C7: both core functions are total over their documented input
domains: the key deriver returns a string for every operation and every
(acyclic) parameter value, and the sanitizer returns a mapping for every
input — including the empty mapping, a 1000-entry mapping (truncated to
50 entries), and a mapping holding a 10000-character value (truncated to
500 characters). -/
theorem claim_C7_totality :
    (∀ (o : String) (p : Value), ∃ s, generateIdempotencyKey o p = s) ∧
      (∀ (m : List (String × Value)), ∃ r, createMetadata m = r) ∧
      createMetadata [] = [] ∧
      (createMetadata c7BigMeta).length = 50 ∧
      createMetadata [("a", Value.vStr (String.mk (List.replicate 10000 'x')))]
        = [("a", String.mk (List.replicate 500 'x'))] := by
  refine ⟨fun o p => ⟨_, rfl⟩, fun m => ⟨_, rfl⟩, rfl, ?_, ?_⟩
  · have hf : metaFilter c7BigMeta [] = c7BigRaw := by
      have h1 := metaFilter_spec c7BigMeta []
        (by rw [c7BigMeta, liftMeta_keys]; exact c7BigRaw_keys_nodup) (by simp)
      rw [c7BigMeta, specFilterMeta_lift] at h1
      simpa using h1
    have hlen : c7BigRaw.length = 1000 := by
      simp [c7BigRaw]
    simp only [createMetadata]
    rw [hf, if_pos (by omega)]
    rw [List.length_take, hlen]
    decide
  · have hlx : (String.mk (List.replicate 10000 'x')).length = 10000 := by
      show (List.replicate 10000 'x').length = 10000
      rw [List.length_replicate]
    have hfil : metaFilter [("a", Value.vStr (String.mk (List.replicate 10000 'x')))] []
        = [("a", String.mk (List.replicate 10000 'x'))] := rfl
    simp only [createMetadata]
    rw [hfil]
    rw [if_neg (by
      simp only [List.length_cons, List.length_nil]
      omega)]
    have htk : truncKey "a" = "a" := by decide
    have htv : truncVal (String.mk (List.replicate 10000 'x'))
        = String.mk (List.replicate 500 'x') := by
      unfold truncVal
      rw [if_pos (by rw [hlx]; omega)]
      unfold jsSubstringTo
      show String.mk ((List.replicate 10000 'x').take 500) = _
      rw [List.take_replicate]
      rw [show (min 500 10000 : Nat) = 500 from by decide]
    show metaSanitize [("a", String.mk (List.replicate 10000 'x'))] [] = _
    simp only [metaSanitize]
    rw [htk, htv]
    rfl

/-! ## Claim C9: metadata merging -/

theorem objLookup_objSet (l : List (String × String)) (k' v k : String) :
    objLookup (objSet l k' v) k = if k' = k then some v else objLookup l k := by
  induction l with
  | nil =>
    simp only [objSet, objLookup]
  | cons kv rest ih =>
    cases kv with
    | mk k₀ v₀ =>
      simp only [objSet]
      by_cases h0 : k₀ = k'
      · rw [if_pos h0]
        simp only [objLookup]
        by_cases h1 : k' = k
        · rw [if_pos h1, if_pos h1]
        · rw [if_neg h1, if_neg h1, if_neg (h0 ▸ h1)]
      · rw [if_neg h0]
        simp only [objLookup]
        by_cases h2 : k₀ = k
        · rw [if_pos h2, if_neg (fun hh : k' = k => h0 (h2 ▸ hh.symm)), if_pos h2]
        · rw [if_neg h2, if_neg h2]
          exact ih

theorem objLookup_eq_none {l : List (String × String)} {k : String}
    (hk : k ∉ l.map Prod.fst) : objLookup l k = none := by
  induction l with
  | nil => rfl
  | cons kv rest ih =>
    simp only [List.map_cons, List.mem_cons] at hk
    push_neg at hk
    cases kv with
    | mk k₀ v₀ =>
      simp only [objLookup]
      rw [if_neg (fun hh : k₀ = k => hk.1 hh.symm)]
      exact ih hk.2

theorem objLookup_objAssign :
    ∀ (src : List (String × String)), (src.map Prod.fst).Nodup →
      ∀ (t : List (String × String)) (k : String),
        objLookup (objAssign t src) k = (objLookup src k).or (objLookup t k)
  | [], _, t, k => by simp [objAssign, objLookup, Option.or]
  | (k₁, v₁) :: src, hnd, t, k => by
    simp only [List.map_cons, List.nodup_cons] at hnd
    have hstep : objAssign t ((k₁, v₁) :: src) = objAssign (objSet t k₁ v₁) src := rfl
    rw [hstep, objLookup_objAssign src hnd.2 (objSet t k₁ v₁) k, objLookup_objSet]
    simp only [objLookup]
    by_cases h1 : k₁ = k
    · rw [if_pos h1, if_pos h1]
      have : objLookup src k = none := objLookup_eq_none (h1 ▸ hnd.1)
      rw [this]
      rfl
    · rw [if_neg h1, if_neg h1]

theorem mergeRaw_append_some (ms : List (Option (List (String × String))))
    (b : List (String × String)) :
    mergeRaw (ms ++ [some b]) = objAssign (mergeRaw ms) b := by
  simp [mergeRaw, List.foldl_append]

/-- C9: merging metadata objects skips `undefined` entries, lets a key in
a later mapping override the same-named key of any earlier mapping, and
returns the combination passed through `createMetadata`; in particular
`mergeMetadata {a:"1"} {a:"2", b:"3"} = {a:"2", b:"3"}`. -/
theorem claim_C9_merge_precedence :
    (∀ (ms : List (Option (List (String × String)))) (b : List (String × String)) (k : String),
        (b.map Prod.fst).Nodup →
        objLookup (mergeRaw (ms ++ [some b])) k = (objLookup b k).or (objLookup (mergeRaw ms) k)) ∧
      (∀ pre post, mergeRaw (pre ++ none :: post) = mergeRaw (pre ++ post)) ∧
      (∀ ms, mergeMetadata ms = createMetadata (liftMeta (mergeRaw ms))) ∧
      mergeMetadata [some [("a", "1")], some [("a", "2"), ("b", "3")]] = [("a", "2"), ("b", "3")] := by
  refine ⟨?_, ?_, fun ms => rfl, by decide⟩
  · intro ms b k hnd
    rw [mergeRaw_append_some, objLookup_objAssign b hnd]
  · intro pre post
    simp [mergeRaw, List.foldl_append]

theorem claim_C9_merge_precedence_witness :
    ((([("a", "2"), ("b", "3")] : List (String × String)).map Prod.fst).Nodup) ∧
      objLookup (mergeRaw ([some [("a", "1")]] ++ [some [("a", "2"), ("b", "3")]])) "a"
        = (objLookup [("a", "2"), ("b", "3")] "a").or
            (objLookup (mergeRaw [some [("a", "1")]]) "a") :=
  ⟨by decide, claim_C9_merge_precedence.1 [some [("a", "1")]] [("a", "2"), ("b", "3")] "a"
    (by decide)⟩

/-! ## Claim C10: an explicitly-undefined property is invisible to the key -/

theorem jsonMembers_ofList_oi_undefined (k : String) :
    ∀ (l : List (String × Value)),
      jsonMembers (FList.ofList (List.orderedInsert fieldLe (k, Value.vUndefined) l)) =
        jsonMembers (FList.ofList l)
  | [] => rfl
  | (k', v') :: l => by
    simp only [List.orderedInsert]
    by_cases h : fieldLe (k, Value.vUndefined) (k', v')
    · rw [if_pos h]
      rfl
    · rw [if_neg h]
      show jsonMembers (.cons k' v' (FList.ofList (List.orderedInsert fieldLe (k, Value.vUndefined) l)))
        = jsonMembers (.cons k' v' (FList.ofList l))
      simp only [jsonMembers]
      cases hjv : jsonStr v' with
      | none => exact jsonMembers_ofList_oi_undefined k l
      | some s => rw [jsonMembers_ofList_oi_undefined k l]

theorem isort_append_single {l : List (String × Value)} {x : String × Value}
    (hx : x.1 ∉ l.map Prod.fst) (hnd : (l.map Prod.fst).Nodup) :
    List.insertionSort fieldLe (l ++ [x]) =
      List.orderedInsert fieldLe x (List.insertionSort fieldLe l) := by
  have hndx : ((l ++ [x]).map Prod.fst).Nodup := by
    rw [List.map_append]
    refine ((List.perm_append_singleton _ _).nodup_iff).mpr ?_
    exact List.nodup_cons.mpr ⟨hx, hnd⟩
  apply List.eq_of_perm_of_sorted (r := fieldLt)
  · refine (List.perm_insertionSort fieldLe (l ++ [x])).trans ?_
    refine (List.perm_append_singleton x l).trans ?_
    refine (((List.perm_insertionSort fieldLe l).symm).cons x).trans ?_
    exact (List.perm_orderedInsert fieldLe x _).symm
  · exact insertionSort_sorted_lt hndx
  · have hsle : List.Sorted fieldLe
        (List.orderedInsert fieldLe x (List.insertionSort fieldLe l)) :=
      (List.sorted_insertionSort fieldLe l).orderedInsert x _
    apply sorted_lt_of_le_nodup hsle
    have hperm : List.Perm
        ((List.orderedInsert fieldLe x (List.insertionSort fieldLe l)).map Prod.fst)
        ((l ++ [x]).map Prod.fst) := by
      refine List.Perm.map Prod.fst ?_
      refine (List.perm_orderedInsert fieldLe x _).trans ?_
      refine (((List.perm_insertionSort fieldLe l).cons x)).trans ?_
      exact (List.perm_append_singleton x l).symm
    exact hperm.nodup_iff.mpr hndx

/-- C10 (implicit): key derivation cannot distinguish an
explicitly-`undefined` property from an absent one: binding a fresh key
`k` to `undefined` leaves the derived idempotency key unchanged, because
`JSON.stringify` drops `undefined`-valued properties. -/
theorem claim_C10_undefined_is_absent (o : String) (fs : List (String × Value)) (k : String)
    (hk : k ∉ fs.map Prod.fst) (hnd : (fs.map Prod.fst).Nodup) :
    generateIdempotencyKey o (.vObj (FList.ofList (fs ++ [(k, Value.vUndefined)]))) =
      generateIdempotencyKey o (.vObj (FList.ofList fs)) := by
  have hkeysmap : ((fs.map fun kv => (kv.1, sortObjectKeys kv.2)).map Prod.fst)
      = fs.map Prod.fst := by
    rw [List.map_map]
    rfl
  have hx : ((k, Value.vUndefined).1 : String)
      ∉ (fs.map fun kv => (kv.1, sortObjectKeys kv.2)).map Prod.fst := by
    rw [hkeysmap]
    exact hk
  have hnd' : ((fs.map fun kv => (kv.1, sortObjectKeys kv.2)).map Prod.fst).Nodup := by
    rw [hkeysmap]
    exact hnd
  have hjson : jsonStringify (sortObjectKeys (.vObj (FList.ofList (fs ++ [(k, Value.vUndefined)]))))
      = jsonStringify (sortObjectKeys (.vObj (FList.ofList fs))) := by
    simp only [sortObjectKeys, sortFL_ofList, List.map_append, List.map_cons, List.map_nil]
    rw [isort_append_single hx hnd']
    simp only [jsonStringify, jsonStr, Option.getD_some]
    rw [jsonMembers_ofList_oi_undefined]
  show o ++ "-" ++ String.mk ((sha256hexChars (utf8Bytes (o ++ ":" ++
      jsonStringify (sortObjectKeys (.vObj (FList.ofList (fs ++ [(k, Value.vUndefined)]))))))).take 32)
    = _
  rw [hjson]
  rfl

theorem claim_C10_undefined_is_absent_witness :
    (("b" : String) ∉ ([("a", Value.vStr "1")] : List (String × Value)).map Prod.fst) ∧
      ((([("a", Value.vStr "1")] : List (String × Value)).map Prod.fst).Nodup) ∧
      generateIdempotencyKey "op"
          (.vObj (FList.ofList ([("a", Value.vStr "1")] ++ [("b", Value.vUndefined)])))
        = generateIdempotencyKey "op" (.vObj (FList.ofList [("a", Value.vStr "1")])) :=
  ⟨by decide, by decide,
    claim_C10_undefined_is_absent "op" [("a", Value.vStr "1")] "b" (by decide) (by decide)⟩
